import Mathlib

/-!
Verification of the taigagra notification bot: a shallow embedding of the
storage layer (internal/storage/storage.go), the Taiga HTTP client's response
handling (internal/taiga/client.go), and the reconciliation loop plus message
chunking from the main package, together with theorems settling the stated
properties of each component.
-/

set_option linter.unusedVariables false

namespace Taigagra

/-! ### Association lists standing in for Go maps

Go `map[int64]V` values are modelled as association lists over `Int` keys.
`alookup` finds the first binding, `aupsert` replaces the first binding in
place or appends, `aremove` deletes the first binding; on the duplicate-free
lists produced by the store operations these coincide with Go map semantics.
-/

def alookup {α : Type} : List (Int × α) → Int → Option α
  | [], _ => none
  | (k, v) :: rest, key => if k = key then some v else alookup rest key

def aupsert {α : Type} : List (Int × α) → Int → α → List (Int × α)
  | [], key, v => [(key, v)]
  | (k, w) :: rest, key, v =>
      if k = key then (key, v) :: rest else (k, w) :: aupsert rest key v

def aremove {α : Type} : List (Int × α) → Int → List (Int × α)
  | [], _ => []
  | (k, w) :: rest, key => if k = key then rest else (k, w) :: aremove rest key

theorem alookup_aupsert_self {α : Type} (m : List (Int × α)) (k : Int) (v : α) :
    alookup (aupsert m k v) k = some v := by
  induction m with
  | nil => simp [aupsert, alookup]
  | cons p rest ih =>
      obtain ⟨k1, v1⟩ := p
      by_cases h : k1 = k
      · simp [aupsert, h, alookup]
      · simp [aupsert, h, alookup, ih]

theorem alookup_aupsert_ne {α : Type} (m : List (Int × α)) (k k2 : Int) (v : α)
    (h : k2 ≠ k) : alookup (aupsert m k v) k2 = alookup m k2 := by
  induction m with
  | nil => simp [aupsert, alookup, Ne.symm h]
  | cons p rest ih =>
      obtain ⟨k1, v1⟩ := p
      by_cases h1 : k1 = k
      · subst h1
        simp [aupsert, alookup, Ne.symm h]
      · simp only [aupsert, if_neg h1]
        by_cases h2 : k1 = k2
        · simp [alookup, h2]
        · simp [alookup, h2, ih]

theorem alookup_mem {α : Type} {m : List (Int × α)} {k : Int} {v : α}
    (h : alookup m k = some v) : (k, v) ∈ m := by
  induction m with
  | nil => simp [alookup] at h
  | cons p rest ih =>
      obtain ⟨k1, v1⟩ := p
      by_cases h1 : k1 = k
      · subst h1
        simp [alookup] at h
        simp [h]
      · simp [alookup, h1] at h
        exact List.mem_cons_of_mem _ (ih h)

theorem alookup_isSome_iff_mem_keys {α : Type} (m : List (Int × α)) (k : Int) :
    (alookup m k).isSome = true ↔ k ∈ m.map Prod.fst := by
  induction m with
  | nil => simp [alookup]
  | cons p rest ih =>
      obtain ⟨k1, v1⟩ := p
      by_cases h1 : k1 = k
      · subst h1
        simp [alookup]
      · simp [alookup, h1, ih, Ne.symm h1]

theorem alookup_eq_none_of_not_mem_keys {α : Type} {m : List (Int × α)} {k : Int}
    (h : k ∉ m.map Prod.fst) : alookup m k = none := by
  cases hh : alookup m k with
  | none => rfl
  | some v =>
      exact absurd ((alookup_isSome_iff_mem_keys m k).mp (by simp [hh])) h

/-! ### Data model (internal/storage/storage.go)

`TaskDigest` captures the two fields compared between polling cycles.
`UserLink` mirrors the Go struct; `lastTaskStates` is an `Option` because Go
distinguishes a nil map (JSON `null` / absent field) from an empty one, and
that distinction is what the normalization invariant is about.
-/

structure TaskDigest where
  status : String
  assignedTo : Int
  deriving DecidableEq, Repr

abbrev DigestMap := List (Int × TaskDigest)

structure UserLink where
  notifyChatID : Option Int := none
  lastTaskStates : Option DigestMap := none
  taigaToken : String := ""
  taigaUserName : String := ""
  watchedProjects : List Int := []
  telegramID : Int := 0
  taigaUserID : Int := 0
  deriving DecidableEq, Repr

structure Store where
  links : List (Int × UserLink) := []
  projectUserMappings : List (Int × List (Int × Int)) := []
  telegramUsernames : List (String × Int) := []
  deriving DecidableEq, Repr

inductive StoreErr where
  | notLinked (telegramID : Int)
  | invalidProjectID
  | invalidTelegramID
  | invalidTaigaUserID
  deriving DecidableEq, Repr

/-- `Store.Save`: insert-or-replace by telegram ID, normalizing a nil digest
map to an empty one first (storage.go lines 87-98). Persistence to disk is
modelled as always succeeding; the claims are about the resulting state. -/
def Store.save (s : Store) (link : UserLink) : Store :=
  let stored : UserLink := { link with lastTaskStates := some (link.lastTaskStates.getD []) }
  { s with links := aupsert s.links link.telegramID stored }

/-- `Store.UpdateTaskState`: replace the stored digest map for a user, failing
when the user has no link (storage.go lines 111-124). The pair returns the
error outcome together with the resulting store. -/
def Store.updateTaskState (s : Store) (telegramID : Int) (digests : Option DigestMap) :
    Except StoreErr Unit × Store :=
  match alookup s.links telegramID with
  | none => (.error (.notLinked telegramID), s)
  | some link =>
      (.ok (),
       { s with links := aupsert s.links telegramID { link with lastTaskStates := digests } })

/-- `Store.SetProjectUserMapping` (storage.go lines 141-168): validates
`projectID > 0`, `telegramID != 0`, `taigaUserID > 0` in that order, then
upserts into the nested project bucket. -/
def Store.setProjectUserMapping (s : Store) (projectID telegramID taigaUserID : Int) :
    Except StoreErr Unit × Store :=
  if projectID ≤ 0 then (.error .invalidProjectID, s)
  else if telegramID = 0 then (.error .invalidTelegramID, s)
  else if taigaUserID ≤ 0 then (.error .invalidTaigaUserID, s)
  else
    let bucket := (alookup s.projectUserMappings projectID).getD []
    (.ok (),
     { s with projectUserMappings :=
        aupsert s.projectUserMappings projectID (aupsert bucket telegramID taigaUserID) })

/-- `Store.RemoveProjectUserMapping` (storage.go lines 170-197): validates the
same way, silently succeeds when the project bucket is absent, and deletes the
bucket entirely when its last entry is removed. -/
def Store.removeProjectUserMapping (s : Store) (projectID telegramID : Int) :
    Except StoreErr Unit × Store :=
  if projectID ≤ 0 then (.error .invalidProjectID, s)
  else if telegramID = 0 then (.error .invalidTelegramID, s)
  else
    match alookup s.projectUserMappings projectID with
    | none => (.ok (), s)
    | some bucket =>
        let bucket2 := aremove bucket telegramID
        if bucket2.isEmpty then
          (.ok (), { s with projectUserMappings := aremove s.projectUserMappings projectID })
        else
          (.ok (), { s with projectUserMappings := aupsert s.projectUserMappings projectID bucket2 })

/-- `Store.ListProjectUserMappings` (storage.go lines 217-236): a copy of the
project's bucket, or an empty table when the bucket is absent. -/
def Store.listProjectUserMappings (s : Store) (projectID : Int) : List (Int × Int) :=
  (alookup s.projectUserMappings projectID).getD []

/-! ### Loading persisted state (storage.go lines 343-381)

`DiskFile` is the decoded shape of the persisted JSON file: either the
structured layout whose top-level `links` table decoded to a non-nil map, or
the legacy flat layout (a bare map of telegram ID to link). A link whose
`last_task_states` field was absent or `null` decodes with
`lastTaskStates = none`, exactly as Go's `json.Unmarshal` leaves the map nil.
-/

inductive DiskFile where
  | structured (links : List (Int × UserLink))
      (projectUserMappings : Option (List (Int × List (Int × Int))))
      (telegramUsernames : Option (List (String × Int)))
  | legacy (links : List (Int × UserLink))
  deriving Repr

def DiskFile.linksOf : DiskFile → List (Int × UserLink)
  | .structured links _ _ => links
  | .legacy links => links

/-- `Store.load` on a successfully decoded file: the links table is taken as
decoded (no normalization), auxiliary tables default to empty. -/
def loadStore : DiskFile → Store
  | .structured links pum tun =>
      { links := links, projectUserMappings := pum.getD [], telegramUsernames := tun.getD [] }
  | .legacy links =>
      { links := links, projectUserMappings := [], telegramUsernames := [] }

/-! ### Taiga work items and the reconciliation cycle (main, pollNotifications) -/

structure UserStory where
  assignedTo : Option Int := none
  subject : String := ""
  statusName : String := ""
  id : Int := 0
  ref : Int := 0
  deriving DecidableEq, Repr

/-- Digest computation (pollNotifications lines 1040-1049): status name plus
assignee, with a nil assignee read as 0. -/
def digestOf (us : UserStory) : TaskDigest :=
  { status := us.statusName, assignedTo := us.assignedTo.getD 0 }

/-- Outcome of the remote fetches performed for one user in one cycle:
the assigned-to-me query, then one query per watched project (in order).
`none` is a failed fetch, which contributes nothing to the union. -/
structure FetchResults where
  assigned : Option (List UserStory) := none
  watched : List (Option (List UserStory)) := []
  deriving Repr

def insertStory (acc : List (Int × UserStory)) (us : UserStory) : List (Int × UserStory) :=
  aupsert acc us.id us

def insertFetch (acc : List (Int × UserStory)) (r : Option (List UserStory)) :
    List (Int × UserStory) :=
  match r with
  | none => acc
  | some stories => stories.foldl insertStory acc

/-- The `allStories` map keyed by story ID (pollNotifications lines 1021-1037):
assigned items first, then each watched project's items, later fetches
overwriting earlier entries with the same ID. -/
def collectStories (fr : FetchResults) : List (Int × UserStory) :=
  fr.watched.foldl insertFetch (insertFetch [] fr.assigned)

/-- The values of `allStories`, in the order the cycle iterates them. -/
def unionStories (fr : FetchResults) : List UserStory :=
  (collectStories fr).map Prod.snd

/-- Every story returned by any successful fetch this cycle. -/
def fetchedStories (fr : FetchResults) : List UserStory :=
  (fr.assigned.getD []) ++ fr.watched.foldr (fun r acc => r.getD [] ++ acc) []

inductive Notification where
  | statusChanged (ref : Int) (subject : String) (oldStatus newStatus : String)
  | assigneeChanged (ref : Int) (subject : String)
  deriving DecidableEq, Repr

/-- Per-item comparison (pollNotifications lines 1055-1066): an item absent
from the previous digests is skipped; a status mismatch produces the status
notification and stops; otherwise an assignee mismatch produces the assignee
notification. -/
def emitFor (last : DigestMap) (us : UserStory) : Option Notification :=
  match alookup last us.id with
  | none => none
  | some old =>
      if old.status ≠ (digestOf us).status then
        some (.statusChanged us.ref us.subject old.status (digestOf us).status)
      else if old.assignedTo ≠ (digestOf us).assignedTo then
        some (.assigneeChanged us.ref us.subject)
      else none

/-- The notifications one cycle sends for one user, each tagged with the ID of
the work item whose comparison produced it. A baseline cycle (empty previous
digests, line 1015 and 1051) emits nothing. -/
def cycleEvents (last : DigestMap) (stories : List UserStory) : List (Int × Notification) :=
  if last.isEmpty then []
  else stories.filterMap (fun us => (emitFor last us).map (fun n => (us.id, n)))

/-- The freshly computed digest map persisted at the end of the cycle
(pollNotifications lines 1039-1050 and 1069). -/
def cycleDigests (stories : List UserStory) : DigestMap :=
  stories.map (fun us => (us.id, digestOf us))

/-- One user's slice of a reconciliation cycle (pollNotifications lines
1006-1069): read the link, normalize a nil previous digest map, build the
union of fetched stories, emit comparisons, persist the new digest map via
`UpdateTaskState` with its error discarded. -/
def stepUser (s : Store) (telegramID : Int) (fr : FetchResults) :
    Store × List (Int × Notification) :=
  match alookup s.links telegramID with
  | none => (s, [])
  | some link =>
      let last := link.lastTaskStates.getD []
      let stories := unionStories fr
      let events := cycleEvents last stories
      ((s.updateTaskState telegramID (some (cycleDigests stories))).2, events)

/-! ### The /link command handler (main, lines 506-537) -/

structure TaigaUser where
  fullName : String := ""
  id : Int := 0
  deriving DecidableEq, Repr

/-- After `GetMe` succeeds, the handler saves a freshly constructed link whose
only populated fields are the IDs, token and user name; `NotifyChatID`,
`WatchedProjects` and `LastTaskStates` are the Go zero values. -/
def linkCommandSave (s : Store) (fromID : Int) (token : String) (me : TaigaUser) : Store :=
  s.save { telegramID := fromID, taigaToken := token, taigaUserID := me.id,
           taigaUserName := me.fullName, lastTaskStates := none }

/-! ### Remote API client response handling (internal/taiga/client.go)

Texts manipulated character-by-character (response bodies, outbound chat
messages) are modelled as `List Char`.
-/

/-- The whitespace set Go's `strings.TrimSpace` strips for Latin-1 input. -/
def goIsSpace (c : Char) : Bool :=
  c = ' ' || c = '\t' || c = '\n' || c = Char.ofNat 11 || c = Char.ofNat 12 ||
  c = '\r' || c = Char.ofNat 0x85 || c = Char.ofNat 0xA0

def goTrimSpace (s : List Char) : List Char :=
  ((s.dropWhile goIsSpace).reverse.dropWhile goIsSpace).reverse

/-- `truncateForLog` (client.go lines 342-354): trim, return empty on a
non-positive cap, pass short bodies through, otherwise keep `max` characters
and append a three-character ellipsis marker. -/
def truncateForLog (body : List Char) (max : Int) : List Char :=
  let b := goTrimSpace body
  if max ≤ 0 then []
  else if (b.length : Int) ≤ max then b
  else b.take max.toNat ++ ['.', '.', '.']

/-- `strings.Contains` on character lists. -/
def goContains : List Char → List Char → Bool
  | [], sub => sub.isEmpty
  | c :: t, sub => List.isPrefixOf sub (c :: t) || goContains t sub

structure HttpResponse where
  statusCode : Nat := 200
  contentType : String := ""
  body : List Char := []
  finalURL : String := ""
  deriving DecidableEq, Repr

inductive DoOutcome where
  | apiError (status : Nat) (url : String) (detail : List Char)
  | contentTypeError (contentType : String) (url : String) (detail : List Char)
  | decodeBody
  | okNoOutput
  deriving DecidableEq, Repr

/-- Classification performed by `Client.do` after the HTTP round-trip
(client.go lines 315-339): status at or above 300 is the API error carrying
the status, the effective URL and the truncated body; with no output expected
the call succeeds; a nonempty content-type not containing "json" is the
content-type error; otherwise the body goes to the JSON decoder. -/
def clientDo (resp : HttpResponse) (expectOut : Bool) : DoOutcome :=
  if 300 ≤ resp.statusCode then
    .apiError resp.statusCode resp.finalURL (truncateForLog resp.body 1024)
  else if expectOut = false then .okNoOutput
  else if resp.contentType = "" then .decodeBody
  else if goContains resp.contentType.data ("json".data) then .decodeBody
  else .contentTypeError resp.contentType resp.finalURL (truncateForLog resp.body 1024)

/-! ### Outbound message chunking (main, splitMessage lines 808-841) -/

/-- Index of the last newline in a window, if any — the backwards scan of
splitMessage lines 827-832. -/
def lastNewlineIdx : List Char → Option Nat
  | [] => none
  | c :: cs =>
      match lastNewlineIdx cs with
      | some j => some (j + 1)
      | none => if c = '\n' then some 0 else none

/-- The cut position chosen for a window: one past the last newline when the
window has one, the full window length otherwise. -/
def goCut (w : List Char) : Nat :=
  match lastNewlineIdx w with
  | some j => j + 1
  | none => w.length

theorem goCut_pos {w : List Char} (h : w ≠ []) : 0 < goCut w := by
  unfold goCut
  split
  · omega
  · exact List.length_pos.mpr h

/-- The chunking loop of splitMessage (lines 819-838): a final short remainder
is trimmed and appended, otherwise the window's cut is taken, the trimmed
chunk kept when nonempty, and the loop continues on the rest. The
`0 < goCut` test is always true when `limit` is positive (`goCut_pos`); the
dead branch only makes the recursion well-founded. -/
def goSplitLoop (limit : Nat) (runes : List Char) : List (List Char) :=
  if h0 : runes = [] then []
  else if h1 : runes.length ≤ limit then [goTrimSpace runes]
  else if h2 : 0 < goCut (runes.take limit) then
    let cut := goCut (runes.take limit)
    let chunk := goTrimSpace (runes.take cut)
    let rest := goSplitLoop limit (runes.drop cut)
    if chunk = [] then rest else chunk :: rest
  else []
  termination_by runes.length
  decreasing_by
    simp only [List.length_drop]
    have hlen : 0 < runes.length := by
      cases runes with
      | nil => exact absurd rfl h0
      | cons a l => simp
    omega

/-- `splitMessage` (lines 808-816): non-positive limits and short texts come
back as a single untrimmed chunk; longer texts go through the loop. -/
def splitMessage (text : List Char) (limit : Int) : List (List Char) :=
  if limit ≤ 0 then [text]
  else if (text.length : Int) ≤ limit then [text]
  else goSplitLoop limit.toNat text

/-! ### Structural lemmas about the story union and the cycle -/

theorem mem_keys_aupsert {α : Type} (m : List (Int × α)) (k : Int) (v : α) (x : Int) :
    x ∈ (aupsert m k v).map Prod.fst ↔ x = k ∨ x ∈ m.map Prod.fst := by
  induction m with
  | nil => simp [aupsert]
  | cons p rest ih =>
      obtain ⟨k1, v1⟩ := p
      by_cases h1 : k1 = k
      · subst h1
        simp [aupsert]
      · simp only [aupsert, if_neg h1, List.map_cons, List.mem_cons, ih]
        tauto

theorem nodup_keys_aupsert {α : Type} {m : List (Int × α)} (k : Int) (v : α)
    (h : (m.map Prod.fst).Nodup) : ((aupsert m k v).map Prod.fst).Nodup := by
  induction m with
  | nil => simp [aupsert]
  | cons p rest ih =>
      obtain ⟨k1, v1⟩ := p
      simp only [List.map_cons, List.nodup_cons] at h
      by_cases h1 : k1 = k
      · subst h1
        simpa [aupsert] using h
      · simp only [aupsert, if_neg h1, List.map_cons, List.nodup_cons]
        refine ⟨fun hmem => ?_, ih h.2⟩
        rcases (mem_keys_aupsert rest k v k1).mp hmem with h2 | h2
        · exact h1 h2
        · exact h.1 h2

theorem aupsert_forall {α : Type} {P : Int × α → Prop} {m : List (Int × α)} {k : Int} {v : α}
    (hm : ∀ p ∈ m, P p) (hkv : P (k, v)) : ∀ p ∈ aupsert m k v, P p := by
  induction m with
  | nil => simpa [aupsert] using hkv
  | cons q rest ih =>
      obtain ⟨k1, v1⟩ := q
      by_cases h1 : k1 = k
      · subst h1
        intro p hp
        rcases List.mem_cons.mp (by simpa [aupsert] using hp) with h2 | h2
        · exact h2 ▸ hkv
        · exact hm p (List.mem_cons_of_mem _ h2)
      · intro p hp
        rcases List.mem_cons.mp (by simpa [aupsert, h1] using hp) with h2 | h2
        · exact h2 ▸ hm _ (List.mem_cons_self _ _)
        · exact ih (fun q hq => hm q (List.mem_cons_of_mem _ hq)) p h2

/-- Invariant of the `allStories` accumulator: keys agree with story IDs and
are duplicate-free. -/
def goodAcc (acc : List (Int × UserStory)) : Prop :=
  (∀ p ∈ acc, p.1 = p.2.id) ∧ (acc.map Prod.fst).Nodup

theorem goodAcc_insertStory {acc : List (Int × UserStory)} (us : UserStory)
    (h : goodAcc acc) : goodAcc (insertStory acc us) :=
  ⟨aupsert_forall h.1 rfl, nodup_keys_aupsert _ _ h.2⟩

theorem goodAcc_foldl_insertStory (l : List UserStory) {acc : List (Int × UserStory)}
    (h : goodAcc acc) : goodAcc (l.foldl insertStory acc) := by
  induction l generalizing acc with
  | nil => simpa using h
  | cons us t ih => exact ih (goodAcc_insertStory us h)

theorem goodAcc_insertFetch {acc : List (Int × UserStory)} (r : Option (List UserStory))
    (h : goodAcc acc) : goodAcc (insertFetch acc r) := by
  cases r with
  | none => simpa [insertFetch] using h
  | some l => exact goodAcc_foldl_insertStory l h

theorem goodAcc_collectStories (fr : FetchResults) : goodAcc (collectStories fr) := by
  unfold collectStories
  have h0 : goodAcc (insertFetch [] fr.assigned) :=
    goodAcc_insertFetch fr.assigned ⟨by simp, by simp⟩
  revert h0
  generalize insertFetch [] fr.assigned = acc
  induction fr.watched generalizing acc with
  | nil => intro h; simpa using h
  | cons r t ih => intro h; exact ih _ (goodAcc_insertFetch r h)

theorem mem_keys_foldl_insertStory (l : List UserStory) (acc : List (Int × UserStory)) (x : Int) :
    x ∈ (l.foldl insertStory acc).map Prod.fst ↔
      x ∈ acc.map Prod.fst ∨ ∃ us ∈ l, us.id = x := by
  induction l generalizing acc with
  | nil => simp
  | cons us t ih =>
      simp only [List.foldl_cons, ih, insertStory, mem_keys_aupsert, List.mem_cons]
      constructor
      · rintro (⟨h | h⟩ | ⟨w, hw, hid⟩)
        · exact Or.inr ⟨us, Or.inl rfl, h.symm⟩
        · exact Or.inl h
        · exact Or.inr ⟨w, Or.inr hw, hid⟩
      · rintro (h | ⟨w, h | hw, hid⟩)
        · exact Or.inl (Or.inr h)
        · exact Or.inl (Or.inl (by rw [h] at hid; exact hid.symm))
        · exact Or.inr ⟨w, hw, hid⟩

theorem mem_keys_insertFetch (r : Option (List UserStory)) (acc : List (Int × UserStory)) (x : Int) :
    x ∈ (insertFetch acc r).map Prod.fst ↔
      x ∈ acc.map Prod.fst ∨ ∃ us ∈ r.getD [], us.id = x := by
  cases r with
  | none => simp [insertFetch]
  | some l => simpa [insertFetch] using mem_keys_foldl_insertStory l acc x

theorem mem_keys_collectStories (fr : FetchResults) (x : Int) :
    x ∈ (collectStories fr).map Prod.fst ↔ ∃ us ∈ fetchedStories fr, us.id = x := by
  unfold collectStories fetchedStories
  have main : ∀ (w : List (Option (List UserStory))) (acc : List (Int × UserStory)),
      x ∈ (w.foldl insertFetch acc).map Prod.fst ↔
        x ∈ acc.map Prod.fst ∨ ∃ us ∈ w.foldr (fun r a => r.getD [] ++ a) [], us.id = x := by
    intro w
    induction w with
    | nil => simp
    | cons r t ih =>
        intro acc
        simp only [List.foldl_cons, ih, mem_keys_insertFetch, List.foldr_cons, List.mem_append]
        constructor
        · rintro (⟨h | ⟨w1, hw, hid⟩⟩ | ⟨w1, hw, hid⟩)
          · exact Or.inl h
          · exact Or.inr ⟨w1, Or.inl hw, hid⟩
          · exact Or.inr ⟨w1, Or.inr hw, hid⟩
        · rintro (h | ⟨w1, hw | hw, hid⟩)
          · exact Or.inl (Or.inl h)
          · exact Or.inl (Or.inr ⟨w1, hw, hid⟩)
          · exact Or.inr ⟨w1, hw, hid⟩
  rw [main, mem_keys_insertFetch]
  simp only [List.map_nil, List.not_mem_nil, false_or, List.mem_append]
  constructor
  · rintro (⟨us, hus, hid⟩ | ⟨us, hus, hid⟩)
    · exact ⟨us, Or.inl hus, hid⟩
    · exact ⟨us, Or.inr hus, hid⟩
  · rintro ⟨us, hus | hus, hid⟩
    · exact Or.inl ⟨us, hus, hid⟩
    · exact Or.inr ⟨us, hus, hid⟩

theorem unionStories_ids (fr : FetchResults) :
    (unionStories fr).map (fun us => us.id) = (collectStories fr).map Prod.fst := by
  unfold unionStories
  rw [List.map_map]
  exact List.map_congr_left fun p hp => ((goodAcc_collectStories fr).1 p hp).symm

theorem unionStories_ids_nodup (fr : FetchResults) :
    ((unionStories fr).map (fun us => us.id)).Nodup := by
  rw [unionStories_ids]
  exact (goodAcc_collectStories fr).2

theorem mem_unionStories_ids (fr : FetchResults) (x : Int) :
    (∃ us ∈ unionStories fr, us.id = x) ↔ ∃ us ∈ fetchedStories fr, us.id = x := by
  rw [← mem_keys_collectStories, ← unionStories_ids]
  simp

theorem mem_keys_cycleDigests (stories : List UserStory) (x : Int) :
    x ∈ (cycleDigests stories).map Prod.fst ↔ ∃ us ∈ stories, us.id = x := by
  simp [cycleDigests, List.map_map, Function.comp]

theorem nodup_keys_cycleDigests {stories : List UserStory}
    (h : (stories.map (fun us => us.id)).Nodup) : ((cycleDigests stories).map Prod.fst).Nodup := by
  unfold cycleDigests
  rw [List.map_map]
  exact h

theorem alookup_cycleDigests_of_mem {stories : List UserStory} {us : UserStory}
    (hnd : (stories.map (fun w => w.id)).Nodup) (h : us ∈ stories) :
    alookup (cycleDigests stories) us.id = some (digestOf us) := by
  induction stories with
  | nil => cases h
  | cons a t ih =>
      simp only [List.map_cons, List.nodup_cons] at hnd
      rcases List.mem_cons.mp h with h1 | h1
      · subst h1
        simp [cycleDigests, alookup]
      · have hne : a.id ≠ us.id := by
          intro he
          exact hnd.1 (he ▸ List.mem_map_of_mem (fun w => w.id) h1)
        simp only [cycleDigests, List.map_cons, alookup, if_neg hne]
        exact ih hnd.2 h1

theorem alookup_cycleDigests_some {stories : List UserStory} {x : Int} {d : TaskDigest}
    (h : alookup (cycleDigests stories) x = some d) :
    ∃ us ∈ stories, us.id = x ∧ d = digestOf us := by
  induction stories with
  | nil => simp [cycleDigests, alookup] at h
  | cons a t ih =>
      by_cases h1 : a.id = x
      · simp only [cycleDigests, List.map_cons, alookup, if_pos h1, Option.some.injEq] at h
        exact ⟨a, List.mem_cons_self _ _, h1, h.symm⟩
      · simp only [cycleDigests, List.map_cons, alookup, if_neg h1] at h
        obtain ⟨us, hus, hid, hd⟩ := ih h
        exact ⟨us, List.mem_cons_of_mem _ hus, hid, hd⟩

theorem TaskDigest.ne_iff {a b : TaskDigest} :
    a ≠ b ↔ a.status ≠ b.status ∨ a.assignedTo ≠ b.assignedTo := by
  cases a
  cases b
  simp only [ne_eq, TaskDigest.mk.injEq, not_and]
  tauto

theorem TaskDigest.eq_of_fields {a b : TaskDigest} (h1 : a.status = b.status)
    (h2 : a.assignedTo = b.assignedTo) : a = b := by
  cases a
  cases b
  simp_all

theorem emitFor_eq_some_iff {last : DigestMap} {us : UserStory} {n : Notification} :
    emitFor last us = some n ↔
      ∃ old, alookup last us.id = some old ∧ old ≠ digestOf us ∧
        ((old.status ≠ (digestOf us).status ∧
            n = .statusChanged us.ref us.subject old.status (digestOf us).status) ∨
         (old.status = (digestOf us).status ∧ old.assignedTo ≠ (digestOf us).assignedTo ∧
            n = .assigneeChanged us.ref us.subject)) := by
  unfold emitFor
  cases hl : alookup last us.id with
  | none => simp
  | some old =>
      dsimp only
      simp only [ne_eq]
      by_cases hs : old.status = (digestOf us).status
      · by_cases ha : old.assignedTo = (digestOf us).assignedTo
        · have hoe : old = digestOf us := TaskDigest.eq_of_fields hs ha
          rw [if_neg (not_not_intro hs), if_neg (not_not_intro ha)]
          constructor
          · intro h
            exact absurd h (by simp)
          · rintro ⟨old2, ho, hne2, _⟩
            obtain rfl := Option.some_inj.mp ho
            exact absurd hoe hne2
        · rw [if_neg (not_not_intro hs), if_pos ha]
          constructor
          · intro h
            have hn := (Option.some_inj.mp h).symm
            exact ⟨old, rfl, TaskDigest.ne_iff.mpr (Or.inr ha), Or.inr ⟨hs, ha, hn⟩⟩
          · rintro ⟨old2, ho, hne2, ⟨hss, hnn⟩ | ⟨hss, haa, hnn⟩⟩ <;>
              obtain rfl := Option.some_inj.mp ho
            · exact absurd hs hss
            · rw [hnn]
      · rw [if_pos hs]
        constructor
        · intro h
          have hn := (Option.some_inj.mp h).symm
          exact ⟨old, rfl, TaskDigest.ne_iff.mpr (Or.inl hs), Or.inl ⟨hs, hn⟩⟩
        · rintro ⟨old2, ho, hne2, ⟨hss, hnn⟩ | ⟨hss, haa, hnn⟩⟩ <;>
            obtain rfl := Option.some_inj.mp ho
          · rw [hnn]
          · exact absurd hss hs

theorem emitFor_exists_some_iff {last : DigestMap} {us : UserStory} :
    (∃ n, emitFor last us = some n) ↔
      ∃ old, alookup last us.id = some old ∧ old ≠ digestOf us := by
  constructor
  · rintro ⟨n, hn⟩
    obtain ⟨old, ho, hne, _⟩ := emitFor_eq_some_iff.mp hn
    exact ⟨old, ho, hne⟩
  · rintro ⟨old, ho, hne⟩
    rcases TaskDigest.ne_iff.mp hne with hs | ha
    · exact ⟨_, emitFor_eq_some_iff.mpr ⟨old, ho, hne, Or.inl ⟨hs, rfl⟩⟩⟩
    · by_cases hs : old.status = (digestOf us).status
      · exact ⟨_, emitFor_eq_some_iff.mpr ⟨old, ho, hne, Or.inr ⟨hs, ha, rfl⟩⟩⟩
      · exact ⟨_, emitFor_eq_some_iff.mpr ⟨old, ho, hne, Or.inl ⟨hs, rfl⟩⟩⟩

theorem mem_cycleEvents_iff {last : DigestMap} {stories : List UserStory} {x : Int}
    {n : Notification} (hne : last ≠ []) :
    (x, n) ∈ cycleEvents last stories ↔
      ∃ us ∈ stories, us.id = x ∧ emitFor last us = some n := by
  have hempty : last.isEmpty = false := by
    cases last with
    | nil => exact absurd rfl hne
    | cons a t => rfl
  simp only [cycleEvents, hempty, Bool.false_eq_true, if_false, List.mem_filterMap,
    Option.map_eq_some', Prod.mk.injEq]
  constructor
  · rintro ⟨us, hus, m, hm, hid, hn⟩
    exact ⟨us, hus, hid, hn ▸ hm⟩
  · rintro ⟨us, hus, hid, hm⟩
    exact ⟨us, hus, n, hm, hid, rfl⟩

theorem cycleEvents_keys_sublist (last : DigestMap) (stories : List UserStory) :
    ((cycleEvents last stories).map Prod.fst).Sublist (stories.map (fun us => us.id)) := by
  unfold cycleEvents
  by_cases h : last.isEmpty
  · simp [h]
  · simp only [h, Bool.false_eq_true, if_false]
    induction stories with
    | nil => simp
    | cons us t ih =>
        cases he : emitFor last us with
        | none => simpa [he] using ih.cons us.id
        | some n => simpa [he] using ih.cons₂ us.id

theorem stepUser_of_found {s : Store} {tid : Int} {link : UserLink} (fr : FetchResults)
    (h : alookup s.links tid = some link) :
    stepUser s tid fr =
      ({ s with links := (aupsert s.links tid
          { link with lastTaskStates := some (cycleDigests (unionStories fr)) }) },
       cycleEvents (link.lastTaskStates.getD []) (unionStories fr)) := by
  unfold stepUser Store.updateTaskState
  rw [h]

theorem alookup_aremove_self {α : Type} {m : List (Int × α)} (k : Int)
    (h : (m.map Prod.fst).Nodup) : alookup (aremove m k) k = none := by
  induction m with
  | nil => simp [aremove, alookup]
  | cons p rest ih =>
      obtain ⟨k1, v1⟩ := p
      simp only [List.map_cons, List.nodup_cons] at h
      by_cases h1 : k1 = k
      · subst h1
        simp only [aremove, if_pos rfl]
        exact alookup_eq_none_of_not_mem_keys h.1
      · simp only [aremove, if_neg h1, alookup, if_neg h1]
        exact ih h.2

/-! ### Claims about the Link Store -/

/-- Fixtures for concrete witnesses and counterexamples. -/
def emptyStore : Store := {}

def c4Link : UserLink :=
  { telegramID := 123, taigaToken := "t", taigaUserID := 456, taigaUserName := "name" }

/-- C4 counterexample: loading a legacy-layout file whose single link carries
no digest map yields a link whose digest map is still nil (`none`), not empty
— `load` performs no normalization. -/
theorem claim_C4_counterexample :
    (alookup (loadStore (.legacy [(123, c4Link)])).links 123).map UserLink.lastTaskStates
      = some none := by
  rfl

/-- C4 (amended): `save` normalizes a nil digest map to an empty one before
storing, so a saved link's stored digest map is never nil; `load`, however,
takes the links exactly as decoded from disk, without normalizing absent
digest maps. -/
theorem claim_C4_amended (s : Store) (link : UserLink) (f : DiskFile) :
    alookup (s.save link).links link.telegramID
      = some { link with lastTaskStates := some (link.lastTaskStates.getD []) }
    ∧ (loadStore f).links = f.linksOf := by
  constructor
  · unfold Store.save
    dsimp only
    exact alookup_aupsert_self _ _ _
  · cases f <;> rfl

/-- C5: `UpdateTaskState` returns NotFound and leaves the store unchanged when
no link exists for the chat user ID; when a link exists it succeeds, replaces
that user's entire digest map with the supplied one, and leaves the link's
other fields, all other users' links, and the other tables unchanged. -/
theorem claim_C5_updateTaskState (s : Store) (tid : Int) (digests : Option DigestMap) :
    (alookup s.links tid = none →
        s.updateTaskState tid digests = (.error (.notLinked tid), s))
    ∧ (∀ link, alookup s.links tid = some link →
        (s.updateTaskState tid digests).1 = .ok ()
        ∧ alookup (s.updateTaskState tid digests).2.links tid
            = some { link with lastTaskStates := digests }
        ∧ (∀ tid2, tid2 ≠ tid →
            alookup (s.updateTaskState tid digests).2.links tid2 = alookup s.links tid2)
        ∧ (s.updateTaskState tid digests).2.projectUserMappings = s.projectUserMappings
        ∧ (s.updateTaskState tid digests).2.telegramUsernames = s.telegramUsernames) := by
  constructor
  · intro h
    unfold Store.updateTaskState
    rw [h]
  · intro link h
    unfold Store.updateTaskState
    rw [h]
    dsimp only
    exact ⟨rfl, alookup_aupsert_self _ _ _,
      fun tid2 h2 => alookup_aupsert_ne _ _ _ _ h2, rfl, rfl⟩

def w5Link : UserLink := { telegramID := 7, taigaToken := "tok" }

def w5Store : Store := { links := [(7, w5Link)] }

def w5Digests : DigestMap := [(1, { status := "New", assignedTo := 0 })]

theorem claim_C5_updateTaskState_witness :
    Store.updateTaskState emptyStore 7 none = (.error (.notLinked 7), emptyStore)
    ∧ alookup (w5Store.updateTaskState 7 (some w5Digests)).2.links 7
        = some { w5Link with lastTaskStates := some w5Digests } :=
  ⟨(claim_C5_updateTaskState emptyStore 7 none).1 rfl,
   ((claim_C5_updateTaskState w5Store 7 (some w5Digests)).2 w5Link rfl).2.1⟩

/-- C6 counterexample: a negative chat user ID is accepted by
`SetProjectUserMapping` — the code only rejects a zero telegram ID — so the
call succeeds and mutates the store rather than failing validation. -/
theorem claim_C6_counterexample :
    (Store.setProjectUserMapping emptyStore 1 (-5) 2).1 = .ok ()
    ∧ (Store.setProjectUserMapping emptyStore 1 (-5) 2).2.listProjectUserMappings 1
        = [(-5, 2)] := by
  exact ⟨rfl, rfl⟩

/-- C6 (amended): `SetProjectUserMapping` fails with a validation error and
leaves the store unchanged when the project ID or the remote user ID is not
positive or the chat user ID is zero — a negative chat user ID is accepted
(Telegram group chat IDs are negative); with valid IDs it succeeds. Removing
the last remaining mapping of a project deletes the project's bucket, so
listing that project's mappings afterwards returns an empty table. -/
theorem claim_C6_amended (s : Store) (p tid u v : Int) :
    ((p ≤ 0 ∨ tid = 0 ∨ u ≤ 0) → ∃ e, s.setProjectUserMapping p tid u = (.error e, s))
    ∧ (0 < p → tid ≠ 0 → 0 < u → (s.setProjectUserMapping p tid u).1 = .ok ())
    ∧ ((s.projectUserMappings.map Prod.fst).Nodup → 0 < p → tid ≠ 0 →
        alookup s.projectUserMappings p = some [(tid, v)] →
        (s.removeProjectUserMapping p tid).1 = .ok ()
        ∧ (s.removeProjectUserMapping p tid).2.listProjectUserMappings p = []) := by
  refine ⟨?_, ?_, ?_⟩
  · intro h
    unfold Store.setProjectUserMapping
    by_cases hp : p ≤ 0
    · exact ⟨.invalidProjectID, by rw [if_pos hp]⟩
    · by_cases ht : tid = 0
      · exact ⟨.invalidTelegramID, by rw [if_neg hp, if_pos ht]⟩
      · have hu : u ≤ 0 := by tauto
        exact ⟨.invalidTaigaUserID, by rw [if_neg hp, if_neg ht, if_pos hu]⟩
  · intro hp ht hu
    unfold Store.setProjectUserMapping
    rw [if_neg (by omega), if_neg ht, if_neg (by omega)]
  · intro hnd hp ht hb
    unfold Store.removeProjectUserMapping
    rw [if_neg (by omega), if_neg ht, hb]
    dsimp only
    have hrem : aremove [(tid, v)] tid = [] := by simp [aremove]
    rw [hrem]
    refine ⟨rfl, ?_⟩
    unfold Store.listProjectUserMappings
    show (alookup (aremove s.projectUserMappings p) p).getD [] = []
    rw [alookup_aremove_self p hnd]
    rfl

def w6Store : Store := { projectUserMappings := [(3, [(9, 4)])] }

theorem claim_C6_amended_witness :
    (∃ e, Store.setProjectUserMapping emptyStore 0 9 4 = (.error e, emptyStore))
    ∧ (Store.setProjectUserMapping emptyStore 3 9 4).1 = .ok ()
    ∧ (w6Store.removeProjectUserMapping 3 9).2.listProjectUserMappings 3 = [] :=
  ⟨(claim_C6_amended emptyStore 0 9 4 0).1 (Or.inl le_rfl),
   (claim_C6_amended emptyStore 3 9 4 0).2.1 (by omega) (by omega) (by omega),
   ((claim_C6_amended w6Store 3 9 4 4).2.2 (by decide) (by omega) (by omega) rfl).2⟩

/-- C10: re-linking saves a freshly constructed link: afterwards the stored
record for that chat user has no watched projects, no notify destination
override, and an empty digest map, regardless of what was stored before. -/
theorem claim_C10_relink (s : Store) (fromID : Int) (token : String) (me : TaigaUser) :
    alookup (linkCommandSave s fromID token me).links fromID
      = some { notifyChatID := none, lastTaskStates := some [], taigaToken := token,
               taigaUserName := me.fullName, watchedProjects := [], telegramID := fromID,
               taigaUserID := me.id } := by
  unfold linkCommandSave Store.save
  dsimp only
  exact alookup_aupsert_self _ _ _

/-! ### Claims about the reconciliation cycle -/

/-- C1: in a non-baseline cycle a notification is emitted for a work item iff
its ID is in both the previous and the newly computed digest maps with
differing digests; the tagged event list carries at most one notification per
item; and each emitted notification is the status-change message (with
reference, subject, old and new status) when the statuses differ, the
assignee-change message only when the statuses agree and the assignees
differ. -/
theorem claim_C1_change_detection (last : DigestMap) (fr : FetchResults) (hnb : last ≠ []) :
    ((cycleEvents last (unionStories fr)).map Prod.fst).Nodup
    ∧ (∀ x : Int, (∃ n, (x, n) ∈ cycleEvents last (unionStories fr)) ↔
        ∃ old cur, alookup last x = some old
          ∧ alookup (cycleDigests (unionStories fr)) x = some cur ∧ old ≠ cur)
    ∧ (∀ x n, (x, n) ∈ cycleEvents last (unionStories fr) →
        ∃ us ∈ unionStories fr, us.id = x ∧ ∃ old, alookup last x = some old ∧
          ((old.status ≠ (digestOf us).status ∧
              n = Notification.statusChanged us.ref us.subject old.status (digestOf us).status) ∨
           (old.status = (digestOf us).status ∧ old.assignedTo ≠ (digestOf us).assignedTo ∧
              n = Notification.assigneeChanged us.ref us.subject))) := by
  have hnd := unionStories_ids_nodup fr
  refine ⟨?_, ?_, ?_⟩
  · exact List.Nodup.sublist (cycleEvents_keys_sublist last (unionStories fr)) hnd
  · intro x
    constructor
    · rintro ⟨n, hn⟩
      obtain ⟨us, hus, hid, he⟩ := (mem_cycleEvents_iff hnb).mp hn
      obtain ⟨old, ho, hne, _⟩ := emitFor_eq_some_iff.mp he
      refine ⟨old, digestOf us, hid ▸ ho, ?_, hne⟩
      rw [← hid]
      exact alookup_cycleDigests_of_mem hnd hus
    · rintro ⟨old, cur, hol, hoc, hne⟩
      obtain ⟨us, hus, hid, hcur⟩ := alookup_cycleDigests_some hoc
      obtain ⟨n, hn⟩ := emitFor_exists_some_iff.mpr ⟨old, hid.symm ▸ hol, hcur ▸ hne⟩
      exact ⟨n, (mem_cycleEvents_iff hnb).mpr ⟨us, hus, hid, hn⟩⟩
  · intro x n hn
    obtain ⟨us, hus, hid, he⟩ := (mem_cycleEvents_iff hnb).mp hn
    obtain ⟨old, ho, hne, hcase⟩ := emitFor_eq_some_iff.mp he
    exact ⟨us, hus, hid, old, hid ▸ ho, hcase⟩

def w1Last : DigestMap := [(1, { status := "New", assignedTo := 0 })]

def w1Fetch : FetchResults :=
  { assigned := some [{ id := 1, ref := 11, subject := "t", statusName := "Done" }] }

theorem claim_C1_change_detection_witness :
    ∃ n, (1, n) ∈ cycleEvents w1Last (unionStories w1Fetch) :=
  ((claim_C1_change_detection w1Last w1Fetch (by decide)).2.1 1).mpr
    ⟨{ status := "New", assignedTo := 0 }, { status := "Done", assignedTo := 0 },
      rfl, rfl, by decide⟩

/-- C2: a baseline cycle (the user's stored digest map is nil or empty) emits
no notification regardless of the fetched content, and afterwards the user's
stored digest map is the freshly computed one, holding exactly one entry per
distinct fetched work item. -/
theorem claim_C2_baseline (s : Store) (tid : Int) (link : UserLink) (fr : FetchResults)
    (hlink : alookup s.links tid = some link)
    (hbase : link.lastTaskStates = none ∨ link.lastTaskStates = some []) :
    (stepUser s tid fr).2 = []
    ∧ alookup (stepUser s tid fr).1.links tid
        = some { link with lastTaskStates := some (cycleDigests (unionStories fr)) }
    ∧ ((cycleDigests (unionStories fr)).map Prod.fst).Nodup
    ∧ (∀ x : Int, x ∈ (cycleDigests (unionStories fr)).map Prod.fst ↔
        ∃ us ∈ fetchedStories fr, us.id = x) := by
  have hstep := stepUser_of_found fr hlink
  have hlast : link.lastTaskStates.getD [] = [] := by
    rcases hbase with h | h <;> simp [h]
  refine ⟨?_, ?_, ?_, ?_⟩
  · rw [hstep]
    dsimp only
    rw [hlast]
    rfl
  · rw [hstep]
    dsimp only
    exact alookup_aupsert_self _ _ _
  · exact nodup_keys_cycleDigests (unionStories_ids_nodup fr)
  · intro x
    rw [mem_keys_cycleDigests]
    exact mem_unionStories_ids fr x

def w2Link : UserLink := { telegramID := 5 }

def w2Store : Store := { links := [(5, w2Link)] }

def w2Fetch : FetchResults :=
  { assigned := some [{ id := 3, statusName := "New" }],
    watched := [some [{ id := 4, statusName := "Done" }]] }

theorem claim_C2_baseline_witness : (stepUser w2Store 5 w2Fetch).2 = [] :=
  (claim_C2_baseline w2Store 5 w2Link w2Fetch rfl (Or.inl rfl)).1

/-- Fixtures for C3: user 7 watches project 10, whose item 1 has a stored
digest; in the next cycle both the assigned-to-me fetch and project 10's
fetch fail. -/
def c3Link : UserLink :=
  { telegramID := 7, taigaToken := "t", taigaUserID := 99, watchedProjects := [10],
    lastTaskStates := some [(1, { status := "New", assignedTo := 0 })] }

def c3Store : Store := { links := [(7, c3Link)] }

def c3Fetch : FetchResults := { assigned := none, watched := [none] }

/-- C3 counterexample: before the cycle the stored digest map holds item 1's
digest; after a cycle in which the watched project's fetch failed, the
persisted digest map is empty — item 1's last-known digest is dropped, not
retained. -/
theorem claim_C3_counterexample :
    alookup (c3Link.lastTaskStates.getD []) 1 = some { status := "New", assignedTo := 0 }
    ∧ (alookup (stepUser c3Store 7 c3Fetch).1.links 7).map UserLink.lastTaskStates
        = some (some []) := by
  exact ⟨rfl, rfl⟩

/-- C3 (amended): the cycle persists a full replacement built only from this
cycle's successful fetches — the persisted digest map holds exactly the
fetched items, so items of a project whose fetch failed are dropped from the
map rather than retaining their last-known digests; they re-enter as fresh
entries (producing no notification) at the next successful fetch. -/
theorem claim_C3_amended (s : Store) (tid : Int) (link : UserLink) (fr : FetchResults)
    (hlink : alookup s.links tid = some link) :
    alookup (stepUser s tid fr).1.links tid
      = some { link with lastTaskStates := some (cycleDigests (unionStories fr)) }
    ∧ (∀ x : Int, x ∈ (cycleDigests (unionStories fr)).map Prod.fst ↔
        ∃ us ∈ fetchedStories fr, us.id = x) := by
  have hstep := stepUser_of_found fr hlink
  constructor
  · rw [hstep]
    dsimp only
    exact alookup_aupsert_self _ _ _
  · intro x
    rw [mem_keys_cycleDigests]
    exact mem_unionStories_ids fr x

theorem claim_C3_amended_witness :
    alookup (stepUser c3Store 7 c3Fetch).1.links 7
      = some { c3Link with lastTaskStates := some [] } :=
  (claim_C3_amended c3Store 7 c3Link c3Fetch rfl).1

/-- C9: baseline status is keyed solely on emptiness of the stored digest
map — whenever a cycle leaves a user's stored digest map empty, the next
cycle for that user emits no notifications, whatever its fetches return. -/
theorem claim_C9_empty_persist_rebaseline (s : Store) (tid : Int) (fr1 fr2 : FetchResults)
    (link1 : UserLink)
    (h1 : alookup (stepUser s tid fr1).1.links tid = some link1)
    (h2 : link1.lastTaskStates = some []) :
    (stepUser (stepUser s tid fr1).1 tid fr2).2 = [] := by
  rw [stepUser_of_found fr2 h1]
  dsimp only
  rw [h2]
  rfl

def w9Fetch2 : FetchResults :=
  { assigned := some [{ id := 1, ref := 11, subject := "t", statusName := "Changed" }] }

theorem claim_C9_empty_persist_rebaseline_witness :
    (stepUser (stepUser c3Store 7 c3Fetch).1 7 w9Fetch2).2 = [] :=
  claim_C9_empty_persist_rebaseline c3Store 7 c3Fetch w9Fetch2
    { c3Link with lastTaskStates := some [] } rfl rfl

/-! ### Lemmas about trimming, truncation and the chunk cut position -/

theorem length_dropWhile_le {α : Type} (p : α → Bool) (l : List α) :
    (l.dropWhile p).length ≤ l.length := by
  induction l with
  | nil => simp [List.dropWhile]
  | cons a t ih =>
      by_cases h : p a
      · simp only [List.dropWhile, h]
        exact Nat.le_succ_of_le ih
      · simp [List.dropWhile, h]

theorem goTrimSpace_length_le (s : List Char) : (goTrimSpace s).length ≤ s.length := by
  unfold goTrimSpace
  rw [List.length_reverse]
  calc ((s.dropWhile goIsSpace).reverse.dropWhile goIsSpace).length
      ≤ (s.dropWhile goIsSpace).reverse.length := length_dropWhile_le _ _
    _ = (s.dropWhile goIsSpace).length := List.length_reverse _
    _ ≤ s.length := length_dropWhile_le _ _

theorem truncateForLog_length_le (body : List Char) :
    (truncateForLog body 1024).length ≤ 1027 := by
  unfold truncateForLog
  dsimp only
  rw [if_neg (by norm_num : ¬ ((1024 : Int) ≤ 0))]
  by_cases h2 : ((goTrimSpace body).length : Int) ≤ 1024
  · rw [if_pos h2]
    omega
  · rw [if_neg h2]
    rw [List.length_append, List.length_take]
    simp only [List.length_cons, List.length_nil]
    omega

theorem lastNewlineIdx_lt {w : List Char} {j : Nat} (h : lastNewlineIdx w = some j) :
    j < w.length := by
  induction w generalizing j with
  | nil => simp [lastNewlineIdx] at h
  | cons c cs ih =>
      unfold lastNewlineIdx at h
      cases hh : lastNewlineIdx cs with
      | some j2 =>
          rw [hh] at h
          obtain rfl := Option.some_inj.mp h
          exact Nat.succ_lt_succ (ih hh)
      | none =>
          rw [hh] at h
          by_cases hc : c = '\n'
          · rw [if_pos hc] at h
            obtain rfl := Option.some_inj.mp h
            simp
          · rw [if_neg hc] at h
            exact absurd h (by simp)

theorem lastNewlineIdx_eq_none_iff (w : List Char) :
    lastNewlineIdx w = none ↔ '\n' ∉ w := by
  induction w with
  | nil => simp [lastNewlineIdx]
  | cons c cs ih =>
      unfold lastNewlineIdx
      cases hh : lastNewlineIdx cs with
      | some j =>
          have hmem : '\n' ∈ cs := by
            by_contra hmemn
            rw [← ih] at hmemn
            rw [hmemn] at hh
            exact absurd hh (by simp)
          simp [hmem]
      | none =>
          by_cases hc : c = '\n'
          · simp [hc]
          · simp [hc, ih.mp hh, Ne.symm hc]

theorem get_of_not_mem_newline {w : List Char} (h : '\n' ∉ w) :
    ∀ k, w.get? k ≠ some '\n' := by
  intro k habs
  exact h (List.get?_mem habs)

theorem lastNewlineIdx_get {w : List Char} {j : Nat} (h : lastNewlineIdx w = some j) :
    w.get? j = some '\n' := by
  induction w generalizing j with
  | nil => simp [lastNewlineIdx] at h
  | cons c cs ih =>
      unfold lastNewlineIdx at h
      cases hh : lastNewlineIdx cs with
      | some j2 =>
          rw [hh] at h
          obtain rfl := Option.some_inj.mp h
          simpa using ih hh
      | none =>
          rw [hh] at h
          by_cases hc : c = '\n'
          · rw [if_pos hc] at h
            obtain rfl := Option.some_inj.mp h
            simp [hc]
          · rw [if_neg hc] at h
            exact absurd h (by simp)

theorem lastNewlineIdx_last {w : List Char} {j : Nat} (h : lastNewlineIdx w = some j) :
    ∀ k, j < k → w.get? k ≠ some '\n' := by
  induction w generalizing j with
  | nil => simp [lastNewlineIdx] at h
  | cons c cs ih =>
      unfold lastNewlineIdx at h
      cases hh : lastNewlineIdx cs with
      | some j2 =>
          rw [hh] at h
          obtain rfl := Option.some_inj.mp h
          intro k hk
          cases k with
          | zero => omega
          | succ k2 =>
              simpa using ih hh k2 (by omega)
      | none =>
          rw [hh] at h
          by_cases hc : c = '\n'
          · rw [if_pos hc] at h
            obtain rfl := Option.some_inj.mp h
            intro k hk
            cases k with
            | zero => omega
            | succ k2 =>
                simpa using
                  get_of_not_mem_newline ((lastNewlineIdx_eq_none_iff cs).mp hh) k2
          · rw [if_neg hc] at h
            exact absurd h (by simp)

theorem goCut_le (w : List Char) : goCut w ≤ w.length := by
  unfold goCut
  cases hh : lastNewlineIdx w with
  | some j => exact lastNewlineIdx_lt hh
  | none => exact le_refl _

theorem goCut_newline_spec {w : List Char} (h : '\n' ∈ w) :
    w.get? (goCut w - 1) = some '\n' ∧ ∀ k, goCut w ≤ k → w.get? k ≠ some '\n' := by
  cases hh : lastNewlineIdx w with
  | none => exact absurd ((lastNewlineIdx_eq_none_iff w).mp hh) (by simp [h])
  | some j =>
      have hgc : goCut w = j + 1 := by
        unfold goCut
        rw [hh]
      rw [hgc]
      refine ⟨?_, ?_⟩
      · simpa using lastNewlineIdx_get hh
      · intro k hk
        exact lastNewlineIdx_last hh k (by omega)

theorem goCut_no_newline {w : List Char} (h : '\n' ∉ w) : goCut w = w.length := by
  unfold goCut
  rw [(lastNewlineIdx_eq_none_iff w).mpr h]

theorem goSplitLoop_nil (limit : Nat) : goSplitLoop limit [] = [] := by
  unfold goSplitLoop
  simp

theorem goSplitLoop_short (limit : Nat) {runes : List Char} (h0 : runes ≠ [])
    (h1 : runes.length ≤ limit) : goSplitLoop limit runes = [goTrimSpace runes] := by
  unfold goSplitLoop
  rw [dif_neg h0, dif_pos h1]

theorem goSplitLoop_step (limit : Nat) (hl : 0 < limit) (runes : List Char)
    (h : limit < runes.length) :
    goSplitLoop limit runes =
      (if goTrimSpace (runes.take (goCut (runes.take limit))) = []
       then goSplitLoop limit (runes.drop (goCut (runes.take limit)))
       else goTrimSpace (runes.take (goCut (runes.take limit)))
              :: goSplitLoop limit (runes.drop (goCut (runes.take limit)))) := by
  have hne : runes ≠ [] := by
    intro he
    rw [he] at h
    simp at h
  have htake : runes.take limit ≠ [] := by
    intro he
    have h2 := congrArg List.length he
    rw [List.length_take] at h2
    simp only [List.length_nil] at h2
    omega
  have hpos : 0 < goCut (runes.take limit) := goCut_pos htake
  conv_lhs => rw [goSplitLoop]
  rw [dif_neg hne, dif_neg (by omega : ¬ runes.length ≤ limit), dif_pos hpos]

theorem goSplitLoop_chunk_le (limit : Nat) (hl : 0 < limit) :
    ∀ (n : Nat) (runes : List Char), runes.length = n →
      ∀ c ∈ goSplitLoop limit runes, c.length ≤ limit := by
  intro n
  induction n using Nat.strong_induction_on with
  | _ n ih =>
      intro runes hn c hc
      by_cases h0 : runes = []
      · rw [h0, goSplitLoop_nil] at hc
        simp at hc
      · by_cases h1 : runes.length ≤ limit
        · rw [goSplitLoop_short limit h0 h1] at hc
          simp only [List.mem_singleton] at hc
          rw [hc]
          exact le_trans (goTrimSpace_length_le runes) h1
        · push_neg at h1
          rw [goSplitLoop_step limit hl runes h1] at hc
          have hcle : goCut (runes.take limit) ≤ limit := by
            have h3 := goCut_le (runes.take limit)
            rw [List.length_take] at h3
            omega
          have hcpos : 0 < goCut (runes.take limit) := by
            refine goCut_pos ?_
            intro he
            have h2 := congrArg List.length he
            rw [List.length_take] at h2
            simp only [List.length_nil] at h2
            omega
          have hdrop : (runes.drop (goCut (runes.take limit))).length < n := by
            rw [List.length_drop]
            omega
          by_cases hch : goTrimSpace (runes.take (goCut (runes.take limit))) = []
          · rw [if_pos hch] at hc
            exact ih _ hdrop _ rfl c hc
          · rw [if_neg hch] at hc
            rcases List.mem_cons.mp hc with hceq | hcm
            · rw [hceq]
              calc (goTrimSpace (runes.take (goCut (runes.take limit)))).length
                  ≤ (runes.take (goCut (runes.take limit))).length := goTrimSpace_length_le _
                _ ≤ goCut (runes.take limit) := by rw [List.length_take]; omega
                _ ≤ limit := hcle
            · exact ih _ hdrop _ rfl c hcm

/-! ### Claims about the client's response handling -/

def c7Resp : HttpResponse :=
  { statusCode := 101, contentType := "application/json", body := ('h' :: ['i']),
    finalURL := "server/api/v1/users/me" }

set_option maxRecDepth 8000 in
/-- C7 counterexample: a 101 response — outside the 2xx range — is not turned
into an error (the helper only errors at status 300 and above), and the
"truncated" body of a long response is 1024 characters plus a three-character
ellipsis, 1027 characters in total, exceeding the claimed 1024-character cap. -/
theorem claim_C7_counterexample :
    clientDo c7Resp true = .decodeBody
    ∧ (truncateForLog (List.replicate 1030 ('a')) 1024).length = 1027 := by
  exact ⟨rfl, by decide⟩

/-- C7 (amended): every response with status at or above 300 yields the API
error (never a success), carrying the status code, the effective URL, and the
body truncated to at most 1024 characters plus an ellipsis marker (1027
characters at most); status codes below 300 — including the 1xx range — are
treated as success; a nonempty non-JSON content-type on an expected-JSON
response below status 300 yields the distinct content-type error. -/
theorem claim_C7_amended (resp : HttpResponse) (expectOut : Bool) :
    (300 ≤ resp.statusCode →
        clientDo resp expectOut
          = .apiError resp.statusCode resp.finalURL (truncateForLog resp.body 1024))
    ∧ (truncateForLog resp.body 1024).length ≤ 1027
    ∧ (resp.statusCode < 300 → expectOut = true → resp.contentType ≠ "" →
        goContains resp.contentType.data ("json".data) = false →
        clientDo resp expectOut
          = .contentTypeError resp.contentType resp.finalURL (truncateForLog resp.body 1024))
    ∧ (∀ a b c d e f, DoOutcome.apiError a b c ≠ DoOutcome.contentTypeError d e f) := by
  refine ⟨?_, truncateForLog_length_le _, ?_, ?_⟩
  · intro h
    unfold clientDo
    rw [if_pos h]
  · intro h1 h2 h3 h4
    unfold clientDo
    rw [if_neg (by omega), h2, if_neg (by simp), if_neg h3, if_neg (by simp [h4])]
  · intro a b c d e f h
    exact DoOutcome.noConfusion h

def w7Resp : HttpResponse :=
  { statusCode := 404, contentType := "text/html", body := ('n' :: ['o']),
    finalURL := "server/api/v1/projects" }

theorem claim_C7_amended_witness :
    clientDo w7Resp true = .apiError 404 "server/api/v1/projects" ('n' :: ['o'])
    ∧ clientDo { w7Resp with statusCode := 200 } true
        = .contentTypeError "text/html" "server/api/v1/projects" ('n' :: ['o']) :=
  ⟨(claim_C7_amended w7Resp true).1 (by decide),
   (claim_C7_amended { w7Resp with statusCode := 200 } true).2.2.1 (by decide) rfl
      (by decide) (by decide)⟩

/-! ### Claim about message chunking -/

/-- C8: with a positive limit, every chunk splitMessage returns holds at most
`limit` characters; a text within the limit comes back as the single untrimmed
chunk; a longer text enters the chunking loop, and at every loop step on a
remainder longer than the limit the cut is positive, at most the limit, lands
one past the last newline of the limit-sized window when that window has a
newline, and is a hard cut at exactly the limit otherwise; a final remainder
within the limit becomes one trimmed chunk. -/
theorem claim_C8_chunking (text : List Char) (limit : Int) (hpos : 0 < limit) :
    (∀ chunk ∈ splitMessage text limit, (chunk.length : Int) ≤ limit)
    ∧ ((text.length : Int) ≤ limit → splitMessage text limit = [text])
    ∧ (limit < (text.length : Int) → splitMessage text limit = goSplitLoop limit.toNat text)
    ∧ (∀ runes : List Char, limit.toNat < runes.length →
        goSplitLoop limit.toNat runes =
          (if goTrimSpace (runes.take (goCut (runes.take limit.toNat))) = []
           then goSplitLoop limit.toNat (runes.drop (goCut (runes.take limit.toNat)))
           else goTrimSpace (runes.take (goCut (runes.take limit.toNat)))
                  :: goSplitLoop limit.toNat (runes.drop (goCut (runes.take limit.toNat))))
        ∧ 0 < goCut (runes.take limit.toNat)
        ∧ goCut (runes.take limit.toNat) ≤ limit.toNat
        ∧ ('\n' ∈ runes.take limit.toNat →
            (runes.take limit.toNat).get? (goCut (runes.take limit.toNat) - 1) = some '\n'
            ∧ ∀ k, goCut (runes.take limit.toNat) ≤ k →
                (runes.take limit.toNat).get? k ≠ some '\n')
        ∧ ('\n' ∉ runes.take limit.toNat → goCut (runes.take limit.toNat) = limit.toNat))
    ∧ (∀ runes : List Char, runes ≠ [] → runes.length ≤ limit.toNat →
        goSplitLoop limit.toNat runes = [goTrimSpace runes]) := by
  have hln : 0 < limit.toNat := by omega
  refine ⟨?_, ?_, ?_, ?_, ?_⟩
  · intro chunk hc
    unfold splitMessage at hc
    rw [if_neg (by omega)] at hc
    by_cases h1 : (text.length : Int) ≤ limit
    · rw [if_pos h1] at hc
      simp only [List.mem_singleton] at hc
      rw [hc]
      exact h1
    · rw [if_neg h1] at hc
      have h2 := goSplitLoop_chunk_le limit.toNat hln text.length text rfl chunk hc
      omega
  · intro h
    unfold splitMessage
    rw [if_neg (by omega), if_pos h]
  · intro h
    unfold splitMessage
    rw [if_neg (by omega), if_neg (by omega)]
  · intro runes hr
    have htake : runes.take limit.toNat ≠ [] := by
      intro he
      have h2 := congrArg List.length he
      rw [List.length_take] at h2
      simp only [List.length_nil] at h2
      omega
    refine ⟨goSplitLoop_step limit.toNat hln runes hr, goCut_pos htake, ?_, ?_, ?_⟩
    · have h3 := goCut_le (runes.take limit.toNat)
      rw [List.length_take] at h3
      omega
    · intro hmem
      exact goCut_newline_spec hmem
    · intro hmem
      rw [goCut_no_newline hmem, List.length_take]
      omega
  · intro runes h0 h1
    exact goSplitLoop_short limit.toNat h0 h1

def w8Text : List Char := ['a', 'b', '\n', 'c', 'd', 'e', 'f']

theorem claim_C8_chunking_witness :
    splitMessage w8Text 4 = goSplitLoop 4 w8Text
    ∧ goCut (w8Text.take 4) = 3 :=
  ⟨(claim_C8_chunking w8Text 4 (by norm_num)).2.2.1 (by decide), by decide⟩

end Taigagra
